import Mathlib

/-!
# stremio-metafetcher: missing-meta resolution, fetch and write pipeline

Shallow embedding of `src/main.go` (`determineMissingMetas`, `fetchMetas`,
`writeMetas` and the body of the per-CSV loop of `main`).

Go strings are modelled by `String`; the only string operations of the
program are equality, concatenation and `strings.TrimSuffix` with the ASCII
suffix `.json`, which act alike on bytes and on characters.  The collaborators
the program calls but does not define (directory listing, HTTP GET, gjson,
file writing, path resolution) are explicit arguments or an explicit
file-system value.  Log output is not modelled; `log.Fatal` and run-time
panics are, as `Abort`.
-/

namespace Metafetcher

/-! ## Strings -/

/-- Go `strings.HasSuffix`. -/
def hasSuffix (s suffix : String) : Bool :=
  suffix.data.isSuffixOf s.data

/-- Go `strings.TrimSuffix`: drop one trailing `suffix` when present. -/
def trimSuffix (s suffix : String) : String :=
  if hasSuffix s suffix then ⟨s.data.take (s.data.length - suffix.data.length)⟩ else s

/-! ## Process termination -/

/-- The two ways the process stops early: `log.Fatal` and a run-time panic. -/
inductive Abort where
  | fatal (msg : String)
  | panic (msg : String)
  deriving DecidableEq

/-! ## determineMissingMetas (main.go 72-116) -/

/-- Header scan, lines 74-81: returns `(imdbIndex, found)` when the loop
is left, started at index `i` on the remaining header cells. -/
def findImdbIndex : List String → Nat → Nat × Bool
  | [], i => (i, false)
  | cell :: cells, i =>
    if cell = "IMDb ID" then (i, true) else findImdbIndex cells (i + 1)

/-- Row loop, lines 86-89: append `record[imdbIndex]` of every data row;
`none` is the index-out-of-range panic. -/
def collectIDs (imdbIndex : Nat) : List (List String) → List String → Option (List String)
  | [], imdbIDs => some imdbIDs
  | record :: records, imdbIDs =>
    match record.get? imdbIndex with
    | none => none
    | some v => collectIDs imdbIndex records (imdbIDs ++ [v])

/-- Inner loop, lines 103-109: is some `fileName` equal to `imdbID`. -/
def foundIn : List String → String → Bool
  | [], _ => false
  | fileName :: fileNames, imdbID =>
    if fileName = imdbID then true else foundIn fileNames imdbID

/-- Lines 96-100: the entry names with a trailing `.json` trimmed. -/
def trimmedNames (fileInfos : List String) : List String :=
  fileInfos.foldl (fun fileNames name => fileNames ++ [trimSuffix name ".json"]) []

/-- Lines 101-113: the identifiers for which no trimmed name is equal. -/
def missingLoop (fileNames imdbIDs : List String) : List String :=
  imdbIDs.foldl
    (fun result imdbID => if foundIn fileNames imdbID then result else result ++ [imdbID]) []

/-- The function `determineMissingMetas`.  `readDir` is `ioutil.ReadDir`
reduced to what the code uses: the entry names, or `none` on error. -/
def determineMissingMetas (readDir : String → Option (List String))
    (records : List (List String)) (metasDir : String) : Except Abort (List String) :=
  match records with
  | [] => .error (.panic "index out of range")
  | headRecord :: dataRecords =>
    match findImdbIndex headRecord 0 with
    | (_, false) => .error (.fatal "Couldn't find \"IMDb ID\" in CSV header:")
    | (imdbIndex, true) =>
      match collectIDs imdbIndex dataRecords [] with
      | none => .error (.panic "index out of range")
      | some imdbIDs =>
        match readDir metasDir with
        | none => .error (.fatal "Couldn't read metas directory:")
        | some fileInfos => .ok (missingLoop (trimmedNames fileInfos) imdbIDs)

/-! ## fetchMetas (main.go 118-154) -/

/-- The struct `meta` of the source: an identifier and its raw meta text. -/
structure Meta where
  imdbID : String
  meta : String
  deriving DecidableEq

/-- What the code reads of an HTTP response: the status code and the result
of `ioutil.ReadAll(res.Body)`, `none` when reading the body fails. -/
structure Response where
  statusCode : Nat
  body : Option String
  deriving DecidableEq

/-- Observable effects of `fetchMetas` other than log lines. -/
inductive Event where
  | httpGet (url : String)
  | sleep (milliseconds : Nat)
  deriving DecidableEq

/-- Line 128: the request URL of an identifier. -/
def metaURL (imdbID : String) : String :=
  "https://v3-cinemeta.strem.io/meta/movie/" ++ imdbID ++ ".json"

/-- One iteration of the loop of `fetchMetas`, lines 126-151, on the pair
(result so far, effects so far).  `httpGet` is `http.Get` (`none` is a
network error), `gjsonRaw body path` is `gjson.GetBytes(body, path).Raw`.
Every `continue` leaves the iteration before the sleep of line 151. -/
def fetchStep (httpGet : String → Option Response) (gjsonRaw : String → String → String)
    (acc : List Meta × List Event) (imdbID : String) : List Meta × List Event :=
  let url := metaURL imdbID
  let trace := acc.2 ++ [Event.httpGet url]
  match httpGet url with
  | none => (acc.1, trace)
  | some res =>
    if res.statusCode ≠ 200 then (acc.1, trace)
    else
      match res.body with
      | none => (acc.1, trace)
      | some resBody =>
        let metaJSON := gjsonRaw resBody "meta"
        if metaJSON = "" then (acc.1, trace)
        else (acc.1 ++ [⟨imdbID, metaJSON⟩], trace ++ [Event.sleep 100])

/-- The function `fetchMetas`: the returned slice and the effects performed. -/
def fetchMetas (httpGet : String → Option Response) (gjsonRaw : String → String → String)
    (imdbIDs : List String) : List Meta × List Event :=
  imdbIDs.foldl (fetchStep httpGet gjsonRaw) ([], [])

/-- Number of `time.Sleep` calls in a list of effects. -/
def sleepCount (trace : List Event) : Nat :=
  (trace.filter (fun e => match e with | .sleep _ => true | _ => false)).length

/-- The five outcomes of one remote lookup, as the fetch contract names them. -/
inductive RemoteOutcome where
  | networkError
  | badStatus (statusCode : Nat)
  | unreadableBody
  | noMeta
  | hasMeta (raw : String)
  deriving DecidableEq

/-- Outcome of the remote service for an identifier: which of the five cases
the answer to the request for that identifier falls in. -/
def remoteOutcome (httpGet : String → Option Response) (gjsonRaw : String → String → String)
    (imdbID : String) : RemoteOutcome :=
  match httpGet (metaURL imdbID) with
  | none => .networkError
  | some res =>
    if res.statusCode ≠ 200 then .badStatus res.statusCode
    else
      match res.body with
      | none => .unreadableBody
      | some resBody =>
        if gjsonRaw resBody "meta" = "" then .noMeta else .hasMeta (gjsonRaw resBody "meta")

/-- The entry an identifier contributes to the result: one for the outcome
with a "meta" element, none for the four others. -/
def fetchedEntry (httpGet : String → Option Response) (gjsonRaw : String → String → String)
    (imdbID : String) : Option Meta :=
  match remoteOutcome httpGet gjsonRaw imdbID with
  | .hasMeta raw => some ⟨imdbID, raw⟩
  | _ => none

/-! ## File system and writeMetas (main.go 156-163) -/

/-- Can `name` be the name of a directory entry: it is not empty, not `.`,
not `..`, and holds no slash. -/
def properName (name : String) : Bool :=
  decide (name ≠ "" ∧ name ≠ "." ∧ name ≠ ".." ∧ '/' ∉ name.data)

/-- File system: the directories that exist and a finite map from file to
content, kept as a list in which the first binding of a file is its content.
A file or directory is identified by its location, the entry names that lead
to it, not by a path string: which location a path string names is decided
by the operating system, the argument `resolve` of the operations below (it
deals with `.`, `..`, repeated slashes, links and the working directory).
The program creates no directory and no link, so one `resolve` serves for a
whole run. -/
structure FS where
  dirs : List (List String)
  files : List (List String × String)
  deriving DecidableEq

/-- Content of the file that `path` names, if there is one. -/
def FS.readFile (resolve : String → List String) (fs : FS) (path : String) : Option String :=
  fs.files.lookup (resolve path)

/-- Name of the location `loc` as a direct entry of the directory at `dir`. -/
def entryName (dir loc : List String) : Option String :=
  match loc.getLast? with
  | none => none
  | some name => if loc.dropLast = dir ∧ properName name = true then some name else none

/-- Directory listing (`ioutil.ReadDir` reduced to entry names): `none` when
`dir` names no directory, else the names of the files and directories directly
inside it, each once.  The order of the names is not modelled. -/
def FS.readDir (resolve : String → List String) (fs : FS) (dir : String) :
    Option (List String) :=
  if resolve dir ∈ fs.dirs then
    some ((fs.files.map Prod.fst ++ fs.dirs).filterMap (entryName (resolve dir))).dedup
  else none

/-- How a call of `ioutil.WriteFile` ends: without error; with an error from
opening the file, which is then untouched; or with an error after the file was
opened (created or truncated), which then holds `left`. -/
inductive WriteResult where
  | written
  | notOpened
  | failedAfterOpen (left : String)
  deriving DecidableEq

/-- Model of `ioutil.WriteFile`: `fault` decides, from the current file
system, the path and the data, how the call ends.  Returns the file system
after the call and whether the call returned an error. -/
def writeFile (resolve : String → List String) (fault : FS → String → String → WriteResult)
    (fs : FS) (path data : String) : FS × Bool :=
  match fault fs path data with
  | .written => ({ fs with files := (resolve path, data) :: fs.files }, false)
  | .notOpened => (fs, true)
  | .failedAfterOpen left => ({ fs with files := (resolve path, left) :: fs.files }, true)

/-- Line 159: the path a meta is written to. -/
def metaPath (metaDir imdbID : String) : String :=
  metaDir ++ "/" ++ imdbID ++ ".json"

/-- The function `writeMetas`: the outcome and the file system it leaves.
`log.Fatal` on the first failing write stops the loop. -/
def writeMetas (resolve : String → List String) (fault : FS → String → String → WriteResult) :
    List Meta → String → FS → Except Abort Unit × FS
  | [], _, fs => (.ok (), fs)
  | m :: metas, metaDir, fs =>
    match writeFile resolve fault fs (metaPath metaDir m.imdbID) m.meta with
    | (fs1, true) => (.error (.fatal "Couldn't write file:"), fs1)
    | (fs1, false) => writeMetas resolve fault metas metaDir fs1

/-- The bindings a run of successful writes of `metas` adds to the file map,
latest first. -/
def writtenFiles (resolve : String → List String) (metas : List Meta) (metaDir : String) :
    List (List String × String) :=
  metas.reverse.map (fun m => (resolve (metaPath metaDir m.imdbID), m.meta))

/-! ## The per-file pipeline (main.go 52-55) -/

/-- Body of the loop of `main` for one CSV file whose records were read:
lines 53-55.  Returns the outcome and the file system left behind. -/
def mainLoopBody (httpGet : String → Option Response) (gjsonRaw : String → String → String)
    (resolve : String → List String) (fault : FS → String → String → WriteResult)
    (records : List (List String)) (dataDir : String) (fs : FS) : Except Abort Unit × FS :=
  match determineMissingMetas (fs.readDir resolve) records (dataDir ++ "/metas") with
  | .error e => (.error e, fs)
  | .ok missingMetas =>
    let metas := (fetchMetas httpGet gjsonRaw missingMetas).1
    writeMetas resolve fault metas (dataDir ++ "/metas") fs

/-! ## A sample path resolution -/

/-- The components of a path: the pieces between its slashes. -/
def splitSlash : List Char → List (List Char)
  | [] => [[]]
  | c :: cs =>
    if c = '/' then [] :: splitSlash cs
    else
      match splitSlash cs with
      | [] => [[c]]
      | piece :: pieces => (c :: piece) :: pieces

/-- One component of a path, applied to the location reached so far. -/
def cleanStep (loc : List String) (component : String) : List String :=
  if component = "" ∨ component = "." then loc
  else if component = ".." then loc.dropLast
  else loc ++ [component]

/-- Resolution of relative paths in a directory tree without links, from the
working directory: empty and `.` components name the directory they stand in,
`..` names its parent, any other component the entry of that name. -/
def cleanPath (path : String) : List String :=
  ((splitSlash path.data).map String.mk).foldl cleanStep []

/-! ## Lemmas on the string operations -/

theorem hasSuffix_iff (s suffix : String) :
    hasSuffix s suffix = true ↔ suffix.data <:+ s.data := by
  simp [hasSuffix]

theorem trimSuffix_append (s suffix : String) : trimSuffix (s ++ suffix) suffix = s := by
  have h : hasSuffix (s ++ suffix) suffix = true := by
    rw [hasSuffix_iff]; exact ⟨s.data, by simp⟩
  simp [trimSuffix, h]

theorem trimSuffix_eq_iff (n v suffix : String) :
    trimSuffix n suffix = v ↔
      n = v ++ suffix ∨ (n = v ∧ hasSuffix v suffix = false) := by
  unfold trimSuffix
  by_cases h : hasSuffix n suffix = true
  · rw [if_pos h]
    obtain ⟨t, ht⟩ := (hasSuffix_iff n suffix).1 h
    have hn : n = ⟨t⟩ ++ suffix := by
      apply String.ext; simp [ht]
    constructor
    · intro hv
      left
      rw [← hv]
      apply String.ext
      simp [← ht]
    · rintro (hv | ⟨hv, hf⟩)
      · subst hv
        apply String.ext
        simp
      · subst hv
        rw [h] at hf
        cases hf
  · rw [if_neg h]
    constructor
    · intro hv
      subst hv
      right
      exact ⟨rfl, by simpa using h⟩
    · rintro (hv | ⟨hv, _⟩)
      · subst hv
        exact absurd ((hasSuffix_iff _ _).2 ⟨v.data, by simp⟩) h
      · exact hv

/-! ## Lemmas on the loops of determineMissingMetas -/

theorem findImdbIndex_eq (header : List String) (i : Nat) :
    findImdbIndex header i
      = (i + header.indexOf "IMDb ID", decide ("IMDb ID" ∈ header)) := by
  induction header generalizing i with
  | nil => simp [findImdbIndex]
  | cons cell cells ih =>
    unfold findImdbIndex
    by_cases h : cell = "IMDb ID"
    · subst h
      simp
    · rw [if_neg h, ih]
      have h2 : ¬ "IMDb ID" = cell := fun e => h e.symm
      simp [List.indexOf_cons, h, h2]
      omega

theorem collectIDs_some (k : Nat) (rows : List (List String)) (acc : List String)
    (h : ∀ row ∈ rows, k < row.length) :
    collectIDs k rows acc = some (acc ++ rows.map (fun row => row.getD k "")) := by
  induction rows generalizing acc with
  | nil => simp [collectIDs]
  | cons row rows ih =>
    have hk : k < row.length := h row (by simp)
    have hget : row.get? k = some (row.getD k "") := by
      simp [List.getD, List.getElem?_eq_getElem hk]
    unfold collectIDs
    rw [hget]
    simp only
    rw [ih _ (fun r hr => h r (by simp [hr]))]
    simp

theorem collectIDs_none (k : Nat) (rows : List (List String)) (acc : List String)
    (h : ∃ row ∈ rows, row.length ≤ k) : collectIDs k rows acc = none := by
  induction rows generalizing acc with
  | nil => simp at h
  | cons row rows ih =>
    unfold collectIDs
    cases hget : row.get? k with
    | none => rfl
    | some v =>
      simp only
      apply ih
      obtain ⟨r, hr, hlen⟩ := h
      rcases List.mem_cons.1 hr with e | hr2
      · subst e
        have := List.get?_eq_none.2 hlen
        rw [this] at hget
        cases hget
      · exact ⟨r, hr2, hlen⟩

theorem foundIn_iff (fileNames : List String) (imdbID : String) :
    foundIn fileNames imdbID = true ↔ imdbID ∈ fileNames := by
  induction fileNames with
  | nil => simp [foundIn]
  | cons n ns ih =>
    unfold foundIn
    by_cases h : n = imdbID
    · simp [h]
    · have h2 : ¬ imdbID = n := fun e => h e.symm
      simp [h, h2, ih]

theorem trimmedNames_eq (fileInfos : List String) :
    trimmedNames fileInfos = fileInfos.map (fun n => trimSuffix n ".json") := by
  have key : ∀ (l acc : List String),
      l.foldl (fun fileNames name => fileNames ++ [trimSuffix name ".json"]) acc
        = acc ++ l.map (fun n => trimSuffix n ".json") := by
    intro l
    induction l with
    | nil => simp
    | cons a l ih => intro acc; simp [ih]
  simpa using key fileInfos []

theorem missingLoop_eq (fileNames imdbIDs : List String) :
    missingLoop fileNames imdbIDs = imdbIDs.filter (fun v => decide (v ∉ fileNames)) := by
  have key : ∀ (l acc : List String),
      l.foldl (fun result imdbID =>
          if foundIn fileNames imdbID then result else result ++ [imdbID]) acc
        = acc ++ l.filter (fun v => decide (v ∉ fileNames)) := by
    intro l
    induction l with
    | nil => simp
    | cons a l ih =>
      intro acc
      rw [List.foldl_cons, ih]
      by_cases h : a ∈ fileNames
      · simp [(foundIn_iff fileNames a).2 h, h]
      · have hf : foundIn fileNames a = false := by
          cases hfi : foundIn fileNames a with
          | false => rfl
          | true => exact absurd ((foundIn_iff fileNames a).1 hfi) h
        simp [hf, h]
  simpa [missingLoop] using key imdbIDs []

/-- Closed form of `determineMissingMetas` on a well-formed input. -/
theorem determineMissingMetas_wellFormed (readDir : String → Option (List String))
    (header : List String) (rows : List (List String)) (metasDir : String)
    (names : List String)
    (hmem : "IMDb ID" ∈ header)
    (hrows : ∀ row ∈ rows, header.indexOf "IMDb ID" < row.length)
    (hdir : readDir metasDir = some names) :
    determineMissingMetas readDir (header :: rows) metasDir
      = .ok ((rows.map (fun row => row.getD (header.indexOf "IMDb ID") "")).filter
          (fun v => decide (v ∉ names.map (fun n => trimSuffix n ".json")))) := by
  unfold determineMissingMetas
  simp only [findImdbIndex_eq, hmem, decide_True, Nat.zero_add]
  rw [collectIDs_some _ _ _ hrows]
  simp only [hdir, List.nil_append, trimmedNames_eq, missingLoop_eq]

theorem findImdbIndex_first (header : List String) (i k : Nat)
    (hhead : header.get? k = some "IMDb ID")
    (hfirst : ∀ j, j < k → header.get? j ≠ some "IMDb ID") :
    findImdbIndex header i = (i + k, true) := by
  induction header generalizing i k with
  | nil => simp at hhead
  | cons cell cells ih =>
    unfold findImdbIndex
    cases k with
    | zero =>
      have h : cell = "IMDb ID" := by simpa using hhead
      simp [h]
    | succ k =>
      have h : cell ≠ "IMDb ID" := by
        have := hfirst 0 (Nat.succ_pos k)
        simpa using this
      rw [if_neg h, ih (i + 1) k (by simpa using hhead)
        (fun j hj => by simpa using hfirst (j + 1) (Nat.succ_lt_succ hj))]
      simp [Nat.add_assoc, Nat.add_comm 1 k]

theorem indexOf_of_first (header : List String) (k : Nat)
    (hhead : header.get? k = some "IMDb ID")
    (hfirst : ∀ j, j < k → header.get? j ≠ some "IMDb ID") :
    "IMDb ID" ∈ header ∧ header.indexOf "IMDb ID" = k := by
  have h1 := findImdbIndex_first header 0 k hhead hfirst
  rw [findImdbIndex_eq] at h1
  simp only [Nat.zero_add, Prod.mk.injEq, decide_eq_true_eq] at h1
  exact ⟨h1.2, h1.1⟩

/-! ## Claims on determineMissingMetas -/

/-- C1: when the header holds "IMDb ID" first at column `k`, every data row
has a field at column `k` and the cache directory lists as `names`,
`determineMissingMetas` returns exactly the column-`k` values, in order and
with their multiplicity, that equal no entry name with one trailing `.json`
trimmed. -/
theorem determineMissingMetas_returns_uncached (readDir : String → Option (List String))
    (header : List String) (rows : List (List String)) (metasDir : String)
    (names : List String) (k : Nat)
    (hhead : header.get? k = some "IMDb ID")
    (hfirst : ∀ j, j < k → header.get? j ≠ some "IMDb ID")
    (hrows : ∀ row ∈ rows, k < row.length)
    (hdir : readDir metasDir = some names) :
    determineMissingMetas readDir (header :: rows) metasDir
      = .ok ((rows.map (fun row => row.getD k "")).filter
          (fun v => decide (∀ n ∈ names, trimSuffix n ".json" ≠ v))) := by
  obtain ⟨hmem, hk⟩ := indexOf_of_first header k hhead hfirst
  subst hk
  rw [determineMissingMetas_wellFormed readDir header rows metasDir names hmem hrows hdir]
  congr 1
  apply List.filter_congr
  intro v _
  simp

/-- C1 at the scenario of the specification: header `Title, IMDb ID`, rows
`A, tt001` and `B, tt002`, cache directory holding `tt001.json` only. -/
theorem determineMissingMetas_returns_uncached_witness :
    determineMissingMetas (fun _ => some ["tt001.json"])
      [["Title", "IMDb ID"], ["A", "tt001"], ["B", "tt002"]] "data/metas"
      = .ok ["tt002"] :=
  (determineMissingMetas_returns_uncached (fun _ => some ["tt001.json"])
    ["Title", "IMDb ID"] [["A", "tt001"], ["B", "tt002"]] "data/metas" ["tt001.json"] 1
    (by decide) (by intro j hj; interval_cases j; decide) (by decide) rfl).trans
    (congrArg Except.ok (by decide))

/-- C3: `determineMissingMetas` stops the process (fatal log or panic) exactly
when the records are empty, or no header cell is "IMDb ID", or some data row
has no field at the index of the identifier column, or the cache directory
cannot be listed; in exactly the other cases it returns a list. -/
theorem determineMissingMetas_aborts_iff (readDir : String → Option (List String))
    (records : List (List String)) (metasDir : String) :
    ((∃ e, determineMissingMetas readDir records metasDir = .error e) ↔
      (records = [] ∨ "IMDb ID" ∉ records.headD [] ∨
        (∃ row ∈ records.tail, row.length ≤ (records.headD []).indexOf "IMDb ID") ∨
        readDir metasDir = none)) ∧
    ((∃ result, determineMissingMetas readDir records metasDir = .ok result) ↔
      ¬ (records = [] ∨ "IMDb ID" ∉ records.headD [] ∨
        (∃ row ∈ records.tail, row.length ≤ (records.headD []).indexOf "IMDb ID") ∨
        readDir metasDir = none)) := by
  cases records with
  | nil => simp [determineMissingMetas]
  | cons header rows =>
    by_cases hmem : "IMDb ID" ∈ header
    · by_cases hshort : ∃ row ∈ rows, row.length ≤ header.indexOf "IMDb ID"
      · have hnone := collectIDs_none _ rows [] hshort
        simp [determineMissingMetas, findImdbIndex_eq, hmem, hnone, hshort]
      · have hrows : ∀ row ∈ rows, header.indexOf "IMDb ID" < row.length := by
          intro row hr
          by_contra hlt
          exact hshort ⟨row, hr, Nat.le_of_not_lt hlt⟩
        cases hdir : readDir metasDir with
        | none =>
          simp [determineMissingMetas, findImdbIndex_eq, hmem,
            collectIDs_some _ _ _ hrows, hdir]
        | some names =>
          rw [determineMissingMetas_wellFormed readDir header rows metasDir names hmem
            hrows hdir]
          simp [hmem, hshort]
    · simp [determineMissingMetas, findImdbIndex_eq, hmem]

/-- C6: on a well-formed records list, when the cache directory lists an
entry `<identifier>.json` for every identifier of the column (whatever the
identifier is, also one ending in `.json`, also repeated ones),
`determineMissingMetas` returns the empty list. -/
theorem determineMissingMetas_all_cached (readDir : String → Option (List String))
    (header : List String) (rows : List (List String)) (metasDir : String)
    (names : List String) (k : Nat)
    (hhead : header.get? k = some "IMDb ID")
    (hfirst : ∀ j, j < k → header.get? j ≠ some "IMDb ID")
    (hrows : ∀ row ∈ rows, k < row.length)
    (hdir : readDir metasDir = some names)
    (hall : ∀ row ∈ rows, row.getD k "" ++ ".json" ∈ names) :
    determineMissingMetas readDir (header :: rows) metasDir = .ok [] := by
  obtain ⟨hmem, hk⟩ := indexOf_of_first header k hhead hfirst
  subst hk
  rw [determineMissingMetas_wellFormed readDir header rows metasDir names hmem hrows hdir]
  congr 1
  rw [List.filter_eq_nil_iff]
  intro v hv
  obtain ⟨row, hrow, rfl⟩ := List.mem_map.1 hv
  have : row.getD (header.indexOf "IMDb ID") "" ∈ names.map (fun n => trimSuffix n ".json") :=
    List.mem_map.2 ⟨_, hall row hrow, trimSuffix_append _ _⟩
  simpa using this

/-- C6 at a column holding an identifier that ends in `.json` and a repeated
identifier. -/
theorem determineMissingMetas_all_cached_witness :
    determineMissingMetas (fun _ => some ["tt1.json.json", "tt1.json"])
      [["IMDb ID"], ["tt1.json"], ["tt1"], ["tt1"]] "data/metas" = .ok [] :=
  determineMissingMetas_all_cached (fun _ => some ["tt1.json.json", "tt1.json"])
    ["IMDb ID"] [["tt1.json"], ["tt1"], ["tt1"]] "data/metas" ["tt1.json.json", "tt1.json"] 0
    (by decide) (by intro j hj; omega) (by decide) rfl (by decide)

/-- C10: on a well-formed records list and a listed cache directory, an
identifier of the column is left out of the result exactly when the
directory has an entry named `<identifier>.json`, or an entry named like the
identifier itself where the identifier does not end in `.json`. -/
theorem determineMissingMetas_omits_iff (readDir : String → Option (List String))
    (header : List String) (rows : List (List String)) (metasDir : String)
    (names : List String) (k : Nat)
    (hhead : header.get? k = some "IMDb ID")
    (hfirst : ∀ j, j < k → header.get? j ≠ some "IMDb ID")
    (hrows : ∀ row ∈ rows, k < row.length)
    (hdir : readDir metasDir = some names) :
    ∃ result, determineMissingMetas readDir (header :: rows) metasDir = .ok result ∧
      ∀ imdbID ∈ rows.map (fun row => row.getD k ""),
        (imdbID ∉ result ↔
          (imdbID ++ ".json" ∈ names ∨ (imdbID ∈ names ∧ hasSuffix imdbID ".json" = false))) := by
  obtain ⟨hmem, hk⟩ := indexOf_of_first header k hhead hfirst
  subst hk
  refine ⟨_, determineMissingMetas_wellFormed readDir header rows metasDir names hmem
    hrows hdir, ?_⟩
  intro imdbID hid
  rw [List.mem_filter]
  simp only [hid, true_and, decide_eq_true_eq, not_not, List.mem_map]
  constructor
  · rintro ⟨n, hn, htrim⟩
    rcases (trimSuffix_eq_iff n imdbID ".json").1 htrim with e | ⟨e, hf⟩
    · left; rw [← e]; exact hn
    · right; rw [← e]; rw [← e] at hf; exact ⟨hn, hf⟩
  · rintro (h | ⟨h, hf⟩)
    · exact ⟨_, h, trimSuffix_append _ _⟩
    · exact ⟨_, h, (trimSuffix_eq_iff _ _ _).2 (Or.inr ⟨rfl, hf⟩)⟩

/-- C10 at a directory whose only entry is the extension-less `tt001`: the
identifier `tt001` counts as cached and `tt002` is missing. -/
theorem determineMissingMetas_omits_iff_witness :
    determineMissingMetas (fun _ => some ["tt001"])
        [["IMDb ID"], ["tt001"], ["tt002"]] "data/metas" = .ok ["tt002"] ∧
    ∃ result, determineMissingMetas (fun _ => some ["tt001"])
        [["IMDb ID"], ["tt001"], ["tt002"]] "data/metas" = .ok result ∧
      ∀ imdbID ∈ ["tt001", "tt002"],
        (imdbID ∉ result ↔
          (imdbID ++ ".json" ∈ ["tt001"] ∨
            (imdbID ∈ ["tt001"] ∧ hasSuffix imdbID ".json" = false))) :=
  ⟨rfl, determineMissingMetas_omits_iff (fun _ => some ["tt001"]) ["IMDb ID"]
    [["tt001"], ["tt002"]] "data/metas" ["tt001"] 0
    (by decide) (by intro j hj; omega) (by decide) rfl⟩

/-! ## fetchMetas -/

theorem fetchStep_eq (httpGet : String → Option Response)
    (gjsonRaw : String → String → String) (acc : List Meta × List Event) (imdbID : String) :
    fetchStep httpGet gjsonRaw acc imdbID
      = (acc.1 ++ (fetchedEntry httpGet gjsonRaw imdbID).toList,
         acc.2 ++ Event.httpGet (metaURL imdbID) ::
           (if (fetchedEntry httpGet gjsonRaw imdbID).isSome then [Event.sleep 100] else [])) := by
  unfold fetchStep fetchedEntry remoteOutcome
  cases hget : httpGet (metaURL imdbID) with
  | none => simp [hget]
  | some res =>
    by_cases hs : res.statusCode = 200
    · cases hb : res.body with
      | none => simp [hget, hs, hb]
      | some resBody =>
        by_cases hm : gjsonRaw resBody "meta" = ""
        · simp [hget, hs, hb, hm]
        · simp [hget, hs, hb, hm]
    · simp [hget, hs]

theorem fetchMetas_fold (httpGet : String → Option Response)
    (gjsonRaw : String → String → String) (imdbIDs : List String)
    (acc : List Meta × List Event) :
    (imdbIDs.foldl (fetchStep httpGet gjsonRaw) acc).1
        = acc.1 ++ imdbIDs.filterMap (fetchedEntry httpGet gjsonRaw) ∧
    sleepCount (imdbIDs.foldl (fetchStep httpGet gjsonRaw) acc).2
        = sleepCount acc.2 + (imdbIDs.filterMap (fetchedEntry httpGet gjsonRaw)).length := by
  induction imdbIDs generalizing acc with
  | nil => simp
  | cons imdbID rest ih =>
    rw [List.foldl_cons]
    obtain ⟨h1, h2⟩ := ih (fetchStep httpGet gjsonRaw acc imdbID)
    rw [h1, h2, fetchStep_eq]
    cases he : fetchedEntry httpGet gjsonRaw imdbID with
    | none => simp [List.filterMap_cons, he, sleepCount, List.filter_append]
    | some m =>
      simp [List.filterMap_cons, he, sleepCount, List.filter_append]
      omega

/-- The result of `fetchMetas` in closed form. -/
theorem fetchMetas_result (httpGet : String → Option Response)
    (gjsonRaw : String → String → String) (imdbIDs : List String) :
    (fetchMetas httpGet gjsonRaw imdbIDs).1
      = imdbIDs.filterMap (fetchedEntry httpGet gjsonRaw) := by
  simpa [fetchMetas] using (fetchMetas_fold httpGet gjsonRaw imdbIDs ([], [])).1

/-- The sleeps of `fetchMetas`: one for each entry of the result. -/
theorem fetchMetas_sleepCount (httpGet : String → Option Response)
    (gjsonRaw : String → String → String) (imdbIDs : List String) :
    sleepCount (fetchMetas httpGet gjsonRaw imdbIDs).2
      = (fetchMetas httpGet gjsonRaw imdbIDs).1.length := by
  rw [fetchMetas_result]
  simpa [fetchMetas, sleepCount] using (fetchMetas_fold httpGet gjsonRaw imdbIDs ([], [])).2

/-- C2: for every remote service and identifier list, `fetchMetas` returns,
in input order, exactly one entry (identifier, raw meta text) for each
identifier whose lookup ends in a 200 answer with a "meta" element, and
nothing for an identifier with a network error, a non-200 status, an
unreadable body or no "meta" element; it has no failing path. -/
theorem fetchMetas_keeps_exactly_valid (httpGet : String → Option Response)
    (gjsonRaw : String → String → String) (imdbIDs : List String) :
    (fetchMetas httpGet gjsonRaw imdbIDs).1
      = imdbIDs.filterMap (fun imdbID =>
          match remoteOutcome httpGet gjsonRaw imdbID with
          | .networkError => none
          | .badStatus _ => none
          | .unreadableBody => none
          | .noMeta => none
          | .hasMeta raw => some ⟨imdbID, raw⟩) := by
  rw [fetchMetas_result]
  congr 1
  funext imdbID
  unfold fetchedEntry
  cases remoteOutcome httpGet gjsonRaw imdbID <;> rfl

/-- C8 fails on the code: one identifier whose lookup answers 404 is
attempted (one GET) and followed by no sleep, where the claim counts one
sleep per attempted identifier. -/
theorem fetchMetas_skip_without_sleep :
    (fetchMetas (fun _ => some ⟨404, some ""⟩) (fun _ _ => "") ["tt001"]).2
        = [Event.httpGet "https://v3-cinemeta.strem.io/meta/movie/tt001.json"] ∧
    sleepCount (fetchMetas (fun _ => some ⟨404, some ""⟩) (fun _ _ => "") ["tt001"]).2 = 0 ∧
    ["tt001"].length = 1 := by
  decide

/-! ## writeMetas -/

theorem lookup_append_of_ne (loc : List String) (written files : List (List String × String))
    (h : ∀ e ∈ written, e.1 ≠ loc) :
    (written ++ files).lookup loc = files.lookup loc := by
  induction written with
  | nil => rfl
  | cons e rest ih =>
    obtain ⟨q, d⟩ := e
    have hq : q ≠ loc := h (q, d) (by simp)
    have hb : (loc == q) = false := by
      simpa using fun e : loc = q => hq e.symm
    rw [List.cons_append, List.lookup_cons, hb]
    exact ih (fun e he => h e (by simp [he]))

theorem lookup_isSome_of_mem (loc : List String) (files : List (List String × String))
    (h : loc ∈ files.map Prod.fst) : (files.lookup loc).isSome = true := by
  induction files with
  | nil => simp at h
  | cons e rest ih =>
    obtain ⟨q, d⟩ := e
    rw [List.lookup_cons]
    by_cases hq : loc = q
    · simp [hq]
    · have hb : (loc == q) = false := by simpa using hq
      rw [hb]
      apply ih
      simpa [hq] using h

theorem writeFile_written (resolve : String → List String)
    (fault : FS → String → String → WriteResult) (fs fs1 : FS) (path data : String)
    (h : writeFile resolve fault fs path data = (fs1, false)) :
    fs1 = { fs with files := (resolve path, data) :: fs.files } := by
  unfold writeFile at h
  cases hf : fault fs path data with
  | written =>
    simp only [hf, Prod.mk.injEq, and_true] at h
    exact h.symm
  | notOpened => simp [hf] at h
  | failedAfterOpen left => simp [hf] at h

theorem writeFile_failed (resolve : String → List String)
    (fault : FS → String → String → WriteResult) (fs fs1 : FS) (path data : String)
    (h : writeFile resolve fault fs path data = (fs1, true)) :
    fs1.dirs = fs.dirs ∧
      (fs1.files = fs.files ∨ ∃ left, fs1.files = (resolve path, left) :: fs.files) := by
  unfold writeFile at h
  cases hf : fault fs path data with
  | written => simp [hf] at h
  | notOpened =>
    simp only [hf, Prod.mk.injEq, and_true] at h
    subst h
    exact ⟨rfl, Or.inl rfl⟩
  | failedAfterOpen left =>
    simp only [hf, Prod.mk.injEq, and_true] at h
    subst h
    exact ⟨rfl, Or.inr ⟨left, rfl⟩⟩

theorem writeMetas_cons (resolve : String → List String)
    (fault : FS → String → String → WriteResult) (m : Meta) (metas : List Meta)
    (metaDir : String) (fs : FS) :
    writeMetas resolve fault (m :: metas) metaDir fs
      = if (writeFile resolve fault fs (metaPath metaDir m.imdbID) m.meta).2 = true
        then (.error (.fatal "Couldn't write file:"),
          (writeFile resolve fault fs (metaPath metaDir m.imdbID) m.meta).1)
        else writeMetas resolve fault metas metaDir
          (writeFile resolve fault fs (metaPath metaDir m.imdbID) m.meta).1 := by
  rw [writeMetas]
  rcases hw : writeFile resolve fault fs (metaPath metaDir m.imdbID) m.meta with ⟨fs1, err⟩
  cases err <;> simp

theorem writeMetas_ok_files (resolve : String → List String)
    (fault : FS → String → String → WriteResult) (metas : List Meta)
    (metaDir : String) (fs fs1 : FS)
    (hok : writeMetas resolve fault metas metaDir fs = (.ok (), fs1)) :
    fs1.dirs = fs.dirs ∧ fs1.files = writtenFiles resolve metas metaDir ++ fs.files := by
  induction metas generalizing fs with
  | nil =>
    simp only [writeMetas, Prod.mk.injEq, true_and] at hok
    subst hok
    simp [writtenFiles]
  | cons m metas ih =>
    rw [writeMetas_cons] at hok
    rcases hw : writeFile resolve fault fs (metaPath metaDir m.imdbID) m.meta with ⟨fs2, err⟩
    rw [hw] at hok
    cases err with
    | true => simp at hok
    | false =>
      simp only [Bool.false_eq_true, if_false] at hok
      have h2 := writeFile_written resolve fault fs fs2 _ _ hw
      obtain ⟨hd, hfiles⟩ := ih fs2 hok
      subst h2
      refine ⟨hd, ?_⟩
      rw [hfiles]
      simp [writtenFiles]

theorem writeMetas_append_ok (resolve : String → List String)
    (fault : FS → String → String → WriteResult)
    (before after : List Meta) (metaDir : String) (fs fs1 : FS)
    (hok : writeMetas resolve fault before metaDir fs = (.ok (), fs1)) :
    writeMetas resolve fault (before ++ after) metaDir fs
      = writeMetas resolve fault after metaDir fs1 := by
  induction before generalizing fs with
  | nil =>
    simp only [writeMetas, Prod.mk.injEq, true_and] at hok
    subst hok
    rfl
  | cons m before ih =>
    rw [writeMetas_cons] at hok
    rw [List.cons_append, writeMetas_cons]
    by_cases herr : (writeFile resolve fault fs (metaPath metaDir m.imdbID) m.meta).2 = true
    · simp [herr] at hok
    · rw [if_neg herr] at hok ⊢
      exact ih _ hok

theorem readFile_written_last (resolve : String → List String) (metas : List Meta)
    (metaDir : String) (files : List (List String × String)) (before after : List Meta)
    (m : Meta) (hsplit : metas = before ++ m :: after)
    (hlast : ∀ x ∈ after,
      resolve (metaPath metaDir x.imdbID) ≠ resolve (metaPath metaDir m.imdbID)) :
    (writtenFiles resolve metas metaDir ++ files).lookup (resolve (metaPath metaDir m.imdbID))
      = some m.meta := by
  subst hsplit
  have hform : writtenFiles resolve (before ++ m :: after) metaDir ++ files
      = writtenFiles resolve after metaDir
        ++ ((resolve (metaPath metaDir m.imdbID), m.meta)
          :: (writtenFiles resolve before metaDir ++ files)) := by
    simp [writtenFiles]
  rw [hform, lookup_append_of_ne]
  · simp [List.lookup_cons]
  · intro e he
    simp only [writtenFiles, List.mem_map, List.mem_reverse] at he
    obtain ⟨x, hx, rfl⟩ := he
    exact hlast x hx

theorem readFile_not_written (resolve : String → List String) (metas : List Meta)
    (metaDir : String) (files : List (List String × String)) (loc : List String)
    (hother : ∀ m ∈ metas, loc ≠ resolve (metaPath metaDir m.imdbID)) :
    (writtenFiles resolve metas metaDir ++ files).lookup loc = files.lookup loc := by
  apply lookup_append_of_ne
  intro e he
  simp only [writtenFiles, List.mem_map, List.mem_reverse] at he
  obtain ⟨x, hx, rfl⟩ := he
  exact fun heq => hother x hx heq.symm

/-- C4 fails on the code: the identifiers `tt1` and `./tt1` name one file,
so after writing both metas the path of `tt1`, an identifier that occurs
once, holds the payload of `./tt1`; and the path `data/metas//tt1.json`,
which is `<metaDir>/<identifier>.json` for no identifier of the list, has
changed. -/
theorem writeMetas_alias_overwrites :
    writeMetas cleanPath (fun _ _ _ => .written) [⟨"tt1", "a"⟩, ⟨"./tt1", "b"⟩] "data/metas"
        ⟨[["data", "metas"]], []⟩
      = (.ok (), ⟨[["data", "metas"]],
          [(["data", "metas", "tt1.json"], "b"), (["data", "metas", "tt1.json"], "a")]⟩) ∧
    ¬ (∀ before m after, [(⟨"tt1", "a"⟩ : Meta), ⟨"./tt1", "b"⟩] = before ++ m :: after →
        (∀ x ∈ after, x.imdbID ≠ m.imdbID) →
        FS.readFile cleanPath ⟨[["data", "metas"]],
            [(["data", "metas", "tt1.json"], "b"), (["data", "metas", "tt1.json"], "a")]⟩
            ("data/metas" ++ "/" ++ m.imdbID ++ ".json") = some m.meta) ∧
    ¬ (∀ path, (∀ m ∈ [(⟨"tt1", "a"⟩ : Meta), ⟨"./tt1", "b"⟩],
          path ≠ "data/metas" ++ "/" ++ m.imdbID ++ ".json") →
        FS.readFile cleanPath ⟨[["data", "metas"]],
            [(["data", "metas", "tt1.json"], "b"), (["data", "metas", "tt1.json"], "a")]⟩ path
          = FS.readFile cleanPath ⟨[["data", "metas"]], []⟩ path) := by
  refine ⟨rfl, ?_, ?_⟩
  · intro h
    have h1 := h [] ⟨"tt1", "a"⟩ [⟨"./tt1", "b"⟩] rfl (by decide)
    exact absurd h1 (by decide)
  · intro h
    have h1 := h "data/metas//tt1.json" (by decide)
    exact absurd h1 (by decide)

/-- C4 as amended: when no write fails, `writeMetas` leaves a file system in
which the path `<metaDir>/<identifier>.json` of a meta holds the raw text of
the last meta of the list whose path names the same file, and every path
that names none of the files written holds what it held before; when
different identifiers of the list name different files, the path of a meta
holds the raw text of the last meta with the same identifier. -/
theorem writeMetas_writes_payloads (resolve : String → List String)
    (fault : FS → String → String → WriteResult)
    (metas : List Meta) (metaDir : String) (fs fs1 : FS)
    (hok : writeMetas resolve fault metas metaDir fs = (.ok (), fs1)) :
    (∀ before m after, metas = before ++ m :: after →
        (∀ x ∈ after, resolve (metaDir ++ "/" ++ x.imdbID ++ ".json")
          ≠ resolve (metaDir ++ "/" ++ m.imdbID ++ ".json")) →
        fs1.readFile resolve (metaDir ++ "/" ++ m.imdbID ++ ".json") = some m.meta) ∧
    (∀ path, (∀ m ∈ metas, resolve path ≠ resolve (metaDir ++ "/" ++ m.imdbID ++ ".json")) →
        fs1.readFile resolve path = fs.readFile resolve path) ∧
    ((∀ x ∈ metas, ∀ y ∈ metas,
        resolve (metaDir ++ "/" ++ x.imdbID ++ ".json")
          = resolve (metaDir ++ "/" ++ y.imdbID ++ ".json") → x.imdbID = y.imdbID) →
      ∀ before m after, metas = before ++ m :: after →
        (∀ x ∈ after, x.imdbID ≠ m.imdbID) →
        fs1.readFile resolve (metaDir ++ "/" ++ m.imdbID ++ ".json") = some m.meta) := by
  obtain ⟨_, hfiles⟩ := writeMetas_ok_files resolve fault metas metaDir fs fs1 hok
  have hlastFile : ∀ before m after, metas = before ++ m :: after →
      (∀ x ∈ after, resolve (metaPath metaDir x.imdbID)
        ≠ resolve (metaPath metaDir m.imdbID)) →
      fs1.readFile resolve (metaPath metaDir m.imdbID) = some m.meta := by
    intro before m after hsplit hlast
    unfold FS.readFile
    rw [hfiles]
    exact readFile_written_last resolve metas metaDir fs.files before after m hsplit hlast
  refine ⟨hlastFile, ?_, ?_⟩
  · intro path hother
    unfold FS.readFile
    rw [hfiles]
    exact readFile_not_written resolve metas metaDir fs.files (resolve path) hother
  · intro hinj before m after hsplit hlast
    apply hlastFile before m after hsplit
    intro x hx heq
    apply hlast x hx
    apply hinj x (by rw [hsplit]; simp [hx]) m (by rw [hsplit]; simp)
    exact heq

/-- C4 as amended, at the scenario of the specification: the meta of `tt002`
is written to `tt002.json` of the cache directory, holding exactly its raw
text. -/
theorem writeMetas_writes_payloads_witness :
    writeMetas cleanPath (fun _ _ _ => .written)
        [⟨"tt002", "\x7b\"id\":\"tt002\",\"name\":\"B\"\x7d"⟩] "data/metas"
        ⟨[["data", "metas"]], []⟩
      = (.ok (), ⟨[["data", "metas"]],
          [(["data", "metas", "tt002.json"], "\x7b\"id\":\"tt002\",\"name\":\"B\"\x7d")]⟩) ∧
    FS.readFile cleanPath ⟨[["data", "metas"]],
        [(["data", "metas", "tt002.json"], "\x7b\"id\":\"tt002\",\"name\":\"B\"\x7d")]⟩
        ("data/metas" ++ "/" ++ "tt002" ++ ".json")
      = some "\x7b\"id\":\"tt002\",\"name\":\"B\"\x7d" :=
  ⟨rfl, (writeMetas_writes_payloads cleanPath (fun _ _ _ => .written)
    [⟨"tt002", "\x7b\"id\":\"tt002\",\"name\":\"B\"\x7d"⟩] "data/metas"
    ⟨[["data", "metas"]], []⟩ _ rfl).1 [] ⟨"tt002", "\x7b\"id\":\"tt002\",\"name\":\"B\"\x7d"⟩ []
    rfl (by simp)⟩

/-- C5: when the writes of the metas before position `i` succeed and the
write of the meta at position `i` returns an error, `writeMetas` ends in a
fatal exit with the file system as that failing call left it: the files of
the earlier metas exist, each holding its payload unless a later one of these
writes went to the same file, and no path naming another file (so none of a
meta after position `i`) has been changed. -/
theorem writeMetas_aborts_at_first_failure (resolve : String → List String)
    (fault : FS → String → String → WriteResult)
    (before : List Meta) (m : Meta) (after : List Meta) (metaDir : String) (fs fs1 fs2 : FS)
    (hbefore : writeMetas resolve fault before metaDir fs = (.ok (), fs1))
    (hfail : writeFile resolve fault fs1 (metaDir ++ "/" ++ m.imdbID ++ ".json") m.meta
      = (fs2, true)) :
    writeMetas resolve fault (before ++ m :: after) metaDir fs
        = (.error (.fatal "Couldn't write file:"), fs2) ∧
    (∀ x ∈ before,
        (fs2.readFile resolve (metaDir ++ "/" ++ x.imdbID ++ ".json")).isSome = true) ∧
    (∀ b x a, before = b ++ x :: a →
        (∀ y ∈ a ++ [m], resolve (metaDir ++ "/" ++ y.imdbID ++ ".json")
          ≠ resolve (metaDir ++ "/" ++ x.imdbID ++ ".json")) →
        fs2.readFile resolve (metaDir ++ "/" ++ x.imdbID ++ ".json") = some x.meta) ∧
    (∀ path, (∀ x ∈ before ++ [m],
          resolve path ≠ resolve (metaDir ++ "/" ++ x.imdbID ++ ".json")) →
        fs2.readFile resolve path = fs.readFile resolve path) := by
  obtain ⟨_, hfiles⟩ := writeMetas_ok_files resolve fault before metaDir fs fs1 hbefore
  have hfail2 : writeFile resolve fault fs1 (metaPath metaDir m.imdbID) m.meta = (fs2, true) :=
    hfail
  obtain ⟨_, hleft⟩ := writeFile_failed resolve fault fs1 fs2 _ _ hfail2
  have hread : ∀ loc, loc ≠ resolve (metaPath metaDir m.imdbID) →
      fs2.files.lookup loc = fs1.files.lookup loc := by
    intro loc hloc
    rcases hleft with h | ⟨left, h⟩
    · rw [h]
    · rw [h, List.lookup_cons]
      have hb : (loc == resolve (metaPath metaDir m.imdbID)) = false := by simpa using hloc
      rw [hb]
  refine ⟨?_, ?_, ?_, ?_⟩
  · rw [writeMetas_append_ok resolve fault before (m :: after) metaDir fs fs1 hbefore,
      writeMetas_cons, hfail2]
    simp
  · intro x hx
    unfold FS.readFile
    apply lookup_isSome_of_mem
    have hx1 : resolve (metaPath metaDir x.imdbID) ∈ fs1.files.map Prod.fst := by
      rw [hfiles]
      simp only [writtenFiles, List.map_append, List.map_map, List.mem_append, List.mem_map,
        List.mem_reverse]
      exact Or.inl ⟨x, hx, rfl⟩
    rcases hleft with h | ⟨left, h⟩
    · rw [h]; exact hx1
    · rw [h]; simp only [List.map_cons, List.mem_cons]; exact Or.inr hx1
  · intro b x a hsplit hlast
    have hne : resolve (metaPath metaDir x.imdbID) ≠ resolve (metaPath metaDir m.imdbID) :=
      fun h => hlast m (by simp) h.symm
    show List.lookup (resolve (metaPath metaDir x.imdbID)) fs2.files = some x.meta
    rw [hread _ hne, hfiles]
    exact readFile_written_last resolve before metaDir fs.files b a x hsplit
      (fun y hy => hlast y (by simp [hy]))
  · intro path hother
    have hne : resolve path ≠ resolve (metaPath metaDir m.imdbID) := hother m (by simp)
    unfold FS.readFile
    rw [hread _ hne, hfiles]
    exact readFile_not_written resolve before metaDir fs.files (resolve path)
      (fun x hx => hother x (by simp [hx]))

/-- C5 on three metas where the write of the second fails after its file was
created empty: the first file is on disk with its payload, the run is
aborted, the third file was never written. -/
theorem writeMetas_aborts_at_first_failure_witness :
    writeMetas cleanPath
        (fun _ path _ => if path = "data/metas/tt2.json" then .failedAfterOpen "" else .written)
        ([⟨"tt1", "a"⟩] ++ ⟨"tt2", "b"⟩ :: [⟨"tt3", "c"⟩]) "data/metas"
        ⟨[["data", "metas"]], []⟩
      = (.error (.fatal "Couldn't write file:"),
          ⟨[["data", "metas"]],
            [(["data", "metas", "tt2.json"], ""), (["data", "metas", "tt1.json"], "a")]⟩) :=
  (writeMetas_aborts_at_first_failure cleanPath
    (fun _ path _ => if path = "data/metas/tt2.json" then .failedAfterOpen "" else .written)
    [⟨"tt1", "a"⟩] ⟨"tt2", "b"⟩ [⟨"tt3", "c"⟩] "data/metas" ⟨[["data", "metas"]], []⟩
    ⟨[["data", "metas"]], [(["data", "metas", "tt1.json"], "a")]⟩
    ⟨[["data", "metas"]],
      [(["data", "metas", "tt2.json"], ""), (["data", "metas", "tt1.json"], "a")]⟩ rfl rfl).1

/-! ## The sample path resolution -/

theorem splitSlash_ne_nil (l : List Char) : splitSlash l ≠ [] := by
  induction l with
  | nil => simp [splitSlash]
  | cons c cs ih =>
    unfold splitSlash
    by_cases hc : c = '/'
    · simp [hc]
    · rw [if_neg hc]
      cases hs : splitSlash cs with
      | nil => simp
      | cons piece pieces => simp

theorem splitSlash_append (a b : List Char) :
    splitSlash (a ++ '/' :: b) = splitSlash a ++ splitSlash b := by
  induction a with
  | nil => simp [splitSlash]
  | cons c cs ih =>
    by_cases hc : c = '/'
    · simp [splitSlash, hc, ih]
    · cases hs : splitSlash cs with
      | nil => exact absurd hs (splitSlash_ne_nil cs)
      | cons piece pieces => simp [splitSlash, hc, ih, hs]

theorem splitSlash_of_not_mem (l : List Char) (h : '/' ∉ l) : splitSlash l = [l] := by
  induction l with
  | nil => rfl
  | cons c cs ih =>
    have hc : c ≠ '/' := fun e => h (by simp [e])
    have hcs : '/' ∉ cs := fun e => h (by simp [e])
    unfold splitSlash
    rw [if_neg hc, ih hcs]

theorem properName_iff (name : String) :
    properName name = true ↔ name ≠ "" ∧ name ≠ "." ∧ name ≠ ".." ∧ '/' ∉ name.data := by
  simp [properName]

/-- The sample resolution takes `<dir>/<name>` to the entry `name` of the
directory that `dir` names. -/
theorem cleanPath_entry (dir name : String) (h : properName name = true) :
    cleanPath (dir ++ "/" ++ name) = cleanPath dir ++ [name] := by
  obtain ⟨h1, h2, h3, h4⟩ := (properName_iff name).1 h
  have hdata : (dir ++ "/" ++ name).data = dir.data ++ '/' :: name.data := by
    simp [String.data_append]
  unfold cleanPath
  rw [hdata, splitSlash_append, splitSlash_of_not_mem _ h4, List.map_append, List.foldl_append]
  simp only [List.map_cons, List.map_nil, List.foldl_cons, List.foldl_nil]
  have hname : String.mk name.data = name := rfl
  rw [hname]
  unfold cleanStep
  simp [h1, h2, h3]

/-! ## The pipeline -/

theorem determineMissingMetas_ok_inv (readDir : String → Option (List String))
    (records : List (List String)) (metasDir : String) (missing : List String)
    (h : determineMissingMetas readDir records metasDir = .ok missing) :
    ∃ header rows names, records = header :: rows ∧ "IMDb ID" ∈ header ∧
      (∀ row ∈ rows, header.indexOf "IMDb ID" < row.length) ∧
      readDir metasDir = some names ∧
      missing = (rows.map (fun row => row.getD (header.indexOf "IMDb ID") "")).filter
        (fun v => decide (v ∉ names.map (fun n => trimSuffix n ".json"))) := by
  cases records with
  | nil => simp [determineMissingMetas] at h
  | cons header rows =>
    by_cases hmem : "IMDb ID" ∈ header
    · by_cases hshort : ∃ row ∈ rows, row.length ≤ header.indexOf "IMDb ID"
      · have hnone := collectIDs_none _ rows [] hshort
        simp [determineMissingMetas, findImdbIndex_eq, hmem, hnone] at h
      · have hrows : ∀ row ∈ rows, header.indexOf "IMDb ID" < row.length := by
          intro row hr
          by_contra hlt
          exact hshort ⟨row, hr, Nat.le_of_not_lt hlt⟩
        cases hdir : readDir metasDir with
        | none =>
          simp [determineMissingMetas, findImdbIndex_eq, hmem,
            collectIDs_some _ _ _ hrows, hdir] at h
        | some names =>
          rw [determineMissingMetas_wellFormed readDir header rows metasDir names hmem
            hrows hdir] at h
          exact ⟨header, rows, names, rfl, hmem, hrows, rfl, (Except.ok.inj h).symm⟩
    · simp [determineMissingMetas, findImdbIndex_eq, hmem] at h

theorem mem_fetchMetas_iff (httpGet : String → Option Response)
    (gjsonRaw : String → String → String) (imdbIDs : List String) (v : String) :
    (∃ m ∈ (fetchMetas httpGet gjsonRaw imdbIDs).1, m.imdbID = v) ↔
      v ∈ imdbIDs ∧ (fetchedEntry httpGet gjsonRaw v).isSome = true := by
  rw [fetchMetas_result]
  have hid : ∀ id m, fetchedEntry httpGet gjsonRaw id = some m → m.imdbID = id := by
    intro id m h
    unfold fetchedEntry at h
    split at h
    · cases h; rfl
    · cases h
  constructor
  · rintro ⟨m, hm, rfl⟩
    obtain ⟨id, hid1, hid2⟩ := List.mem_filterMap.1 hm
    have := hid id m hid2
    subst this
    exact ⟨hid1, by simp [hid2]⟩
  · rintro ⟨hv, hsome⟩
    obtain ⟨m, hm⟩ := Option.isSome_iff_exists.1 hsome
    exact ⟨m, List.mem_filterMap.2 ⟨v, hv, hm⟩, hid v m hm⟩

theorem json_name_injective (a b : String) (h : a ++ ".json" = b ++ ".json") : a = b := by
  have hd := congrArg String.data h
  simp only [String.data_append] at hd
  exact String.ext (List.append_cancel_right hd)

theorem properName_json (imdbID : String) (h : '/' ∉ imdbID.data) :
    properName (imdbID ++ ".json") = true := by
  have hlen : (imdbID ++ ".json").data.length = imdbID.data.length + 5 := by
    simp [String.data_append]
  rw [properName_iff]
  refine ⟨?_, ?_, ?_, ?_⟩
  · intro e
    rw [e] at hlen
    simp at hlen
  · intro e
    rw [e] at hlen
    simp at hlen
  · intro e
    rw [e] at hlen
    simp at hlen
  · simp only [String.data_append, List.mem_append, not_or]
    exact ⟨h, by decide⟩

theorem resolve_metaPath (resolve : String → List String) (metaDir imdbID : String)
    (hres : ∀ name, properName name = true →
      resolve (metaDir ++ "/" ++ name) = resolve metaDir ++ [name])
    (h : '/' ∉ imdbID.data) :
    resolve (metaPath metaDir imdbID) = resolve metaDir ++ [imdbID ++ ".json"] := by
  rw [← hres _ (properName_json imdbID h)]
  unfold metaPath
  rw [String.append_assoc (metaDir ++ "/") imdbID ".json"]

theorem entryName_child (dir : List String) (name : String) (h : properName name = true) :
    entryName dir (dir ++ [name]) = some name := by
  simp [entryName, h]

theorem entryName_some (dir loc : List String) (name : String)
    (h : entryName dir loc = some name) : properName name = true ∧ loc = dir ++ [name] := by
  unfold entryName at h
  cases hl : loc.getLast? with
  | none => simp [hl] at h
  | some last =>
    simp only [hl] at h
    by_cases hc : loc.dropLast = dir ∧ properName last = true
    · rw [if_pos hc] at h
      have hn : last = name := Option.some.inj h
      subst hn
      refine ⟨hc.2, ?_⟩
      have hne : loc ≠ [] := by
        intro e
        rw [e] at hl
        simp at hl
      have hlast : loc.getLast hne = last := by
        have := List.getLast?_eq_getLast loc hne
        rw [this] at hl
        exact Option.some.inj hl
      rw [← hc.1, ← hlast]
      exact (List.dropLast_append_getLast hne).symm
    · rw [if_neg hc] at h
      cases h

theorem mem_readDir (resolve : String → List String) (fs : FS) (dir : String)
    (names : List String) (hdir : fs.readDir resolve dir = some names) (n : String) :
    n ∈ names ↔
      properName n = true ∧ resolve dir ++ [n] ∈ fs.files.map Prod.fst ++ fs.dirs := by
  unfold FS.readDir at hdir
  by_cases hd : resolve dir ∈ fs.dirs
  · rw [if_pos hd] at hdir
    have hnames := (Option.some.inj hdir).symm
    rw [hnames, List.mem_dedup, List.mem_filterMap]
    constructor
    · rintro ⟨loc, hloc, hn⟩
      obtain ⟨hp, rfl⟩ := entryName_some _ _ _ hn
      exact ⟨hp, hloc⟩
    · rintro ⟨hp, hloc⟩
      exact ⟨_, hloc, entryName_child _ _ hp⟩
  · rw [if_neg hd] at hdir
    cases hdir

theorem readDir_after_writes (resolve : String → List String) (metas : List Meta)
    (metaDir : String) (fs fs1 : FS) (names : List String)
    (hres : ∀ name, properName name = true →
      resolve (metaDir ++ "/" ++ name) = resolve metaDir ++ [name])
    (hplain : ∀ m ∈ metas, '/' ∉ m.imdbID.data)
    (hdirs : fs1.dirs = fs.dirs)
    (hfiles : fs1.files = writtenFiles resolve metas metaDir ++ fs.files)
    (hdir : fs.readDir resolve metaDir = some names) :
    ∃ names1, fs1.readDir resolve metaDir = some names1 ∧
      ∀ n, n ∈ names1 ↔ (n ∈ names ∨ ∃ m ∈ metas, n = m.imdbID ++ ".json") := by
  have hd : resolve metaDir ∈ fs.dirs := by
    unfold FS.readDir at hdir
    by_contra hd
    rw [if_neg hd] at hdir
    cases hdir
  have h1 : ∃ names1, fs1.readDir resolve metaDir = some names1 := by
    unfold FS.readDir
    rw [hdirs, if_pos hd]
    exact ⟨_, rfl⟩
  obtain ⟨names1, hdir1⟩ := h1
  refine ⟨names1, hdir1, ?_⟩
  intro n
  rw [mem_readDir resolve fs1 metaDir names1 hdir1 n, mem_readDir resolve fs metaDir names hdir n,
    hdirs, hfiles]
  simp only [writtenFiles, List.map_append, List.map_map, List.mem_append, List.mem_map,
    List.mem_reverse, Function.comp]
  constructor
  · rintro ⟨hp, ((⟨m, hm, hloc⟩ | hloc) | hloc)⟩
    · right
      refine ⟨m, hm, ?_⟩
      rw [resolve_metaPath resolve metaDir m.imdbID hres (hplain m hm)] at hloc
      have := List.append_cancel_left hloc
      simpa using this.symm
    · exact Or.inl ⟨hp, Or.inl hloc⟩
    · exact Or.inl ⟨hp, Or.inr hloc⟩
  · rintro (⟨hp, (hloc | hloc)⟩ | ⟨m, hm, rfl⟩)
    · exact ⟨hp, Or.inl (Or.inr hloc)⟩
    · exact ⟨hp, Or.inr hloc⟩
    · exact ⟨properName_json _ (hplain m hm),
        Or.inl (Or.inl ⟨m, hm, resolve_metaPath resolve metaDir m.imdbID hres (hplain m hm)⟩)⟩

theorem mainLoopBody_ok_inv (httpGet : String → Option Response)
    (gjsonRaw : String → String → String) (resolve : String → List String)
    (fault : FS → String → String → WriteResult)
    (records : List (List String)) (dataDir : String) (fs fs1 : FS) (missing : List String)
    (hmissing : determineMissingMetas (fs.readDir resolve) records (dataDir ++ "/metas")
      = .ok missing)
    (hrun : mainLoopBody httpGet gjsonRaw resolve fault records dataDir fs = (.ok (), fs1)) :
    writeMetas resolve fault (fetchMetas httpGet gjsonRaw missing).1 (dataDir ++ "/metas") fs
      = (.ok (), fs1) := by
  unfold mainLoopBody at hrun
  simp only [hmissing] at hrun
  exact hrun

theorem writeMetas_files (resolve : String → List String)
    (fault : FS → String → String → WriteResult) (metas : List Meta)
    (metaDir : String) (fs : FS) :
    ∃ added, (∀ e ∈ added, ∃ x ∈ metas, e.1 = resolve (metaPath metaDir x.imdbID)) ∧
      (writeMetas resolve fault metas metaDir fs).2.files = added ++ fs.files := by
  induction metas generalizing fs with
  | nil => exact ⟨[], by simp, by simp [writeMetas]⟩
  | cons m metas ih =>
    rw [writeMetas_cons]
    rcases hw : writeFile resolve fault fs (metaPath metaDir m.imdbID) m.meta with ⟨fs2, err⟩
    cases err with
    | true =>
      simp only [if_true]
      obtain ⟨_, hleft⟩ := writeFile_failed resolve fault fs fs2 _ _ hw
      rcases hleft with h | ⟨left, h⟩
      · exact ⟨[], by simp, by simp [h]⟩
      · refine ⟨[(resolve (metaPath metaDir m.imdbID), left)], ?_, by simp [h]⟩
        intro e he
        simp only [List.mem_singleton] at he
        subst he
        exact ⟨m, by simp, rfl⟩
    | false =>
      simp only [Bool.false_eq_true, if_false]
      have h2 := writeFile_written resolve fault fs fs2 _ _ hw
      obtain ⟨added, hsub, hfiles⟩ := ih fs2
      refine ⟨added ++ [(resolve (metaPath metaDir m.imdbID), m.meta)], ?_, ?_⟩
      · intro e he
        rcases List.mem_append.1 he with h | h
        · obtain ⟨x, hx, hex⟩ := hsub e h
          exact ⟨x, by simp [hx], hex⟩
        · simp only [List.mem_singleton] at h
          subst h
          exact ⟨m, by simp, rfl⟩
      · rw [hfiles, h2]
        simp

theorem lookup_eq_none_of_not_mem (loc : List String) (files : List (List String × String))
    (h : loc ∉ files.map Prod.fst) : files.lookup loc = none := by
  induction files with
  | nil => rfl
  | cons e rest ih =>
    obtain ⟨q, d⟩ := e
    have hq : loc ≠ q := fun e => h (by simp [e])
    have hb : (loc == q) = false := by simpa using hq
    rw [List.lookup_cons, hb]
    exact ih (fun hm => h (by simp [hm]))

/-- A fetched meta belongs to an identifier that no listed entry stands for. -/
theorem fetched_not_listed (httpGet : String → Option Response)
    (gjsonRaw : String → String → String) (readDir : String → Option (List String))
    (records : List (List String)) (metasDir : String) (names missing : List String)
    (hdir : readDir metasDir = some names)
    (hmissing : determineMissingMetas readDir records metasDir = .ok missing) :
    ∀ m ∈ (fetchMetas httpGet gjsonRaw missing).1,
      m.imdbID ∈ missing ∧ m.imdbID ++ ".json" ∉ names := by
  intro m hm
  obtain ⟨header, rows, names2, hrec, hmem, hrows, hdir2, hmiss⟩ :=
    determineMissingMetas_ok_inv readDir records metasDir missing hmissing
  rw [hdir] at hdir2
  cases hdir2
  have hin : m.imdbID ∈ missing :=
    ((mem_fetchMetas_iff httpGet gjsonRaw missing m.imdbID).1 ⟨m, hm, rfl⟩).1
  refine ⟨hin, ?_⟩
  rw [hmiss, List.mem_filter] at hin
  have hnot : m.imdbID ∉ names.map (fun n => trimSuffix n ".json") := by simpa using hin.2
  intro hn
  exact hnot (List.mem_map.2 ⟨_, hn, trimSuffix_append _ _⟩)

/-- C7 fails on the code: with a remote service answering 404 for `tt002`
and a meta for `./tt1`, a first run that completes (it writes the file
`tt1.json` of the cache directory) leaves both identifiers missing for the
second run. -/
theorem second_run_still_missing :
    mainLoopBody
        (fun url => if url = "https://v3-cinemeta.strem.io/meta/movie/./tt1.json"
          then some ⟨200, some "body"⟩ else some ⟨404, some ""⟩)
        (fun body _ => if body = "body" then "raw" else "") cleanPath (fun _ _ _ => .written)
        [["IMDb ID"], ["tt002"], ["./tt1"]] "data" ⟨[["data", "metas"]], []⟩
      = (.ok (), ⟨[["data", "metas"]], [(["data", "metas", "tt1.json"], "raw")]⟩) ∧
    determineMissingMetas
        (FS.readDir cleanPath ⟨[["data", "metas"]], [(["data", "metas", "tt1.json"], "raw")]⟩)
        [["IMDb ID"], ["tt002"], ["./tt1"]] "data/metas"
      = .ok ["tt002", "./tt1"] :=
  ⟨rfl, rfl⟩

/-- C7 as amended: where a name without a slash appended to the path of the
cache directory names the entry of that name, and no identifier found
missing holds a slash, the second run after a run that completes finds
missing exactly the identifiers the first run found missing whose lookup
yielded no meta; so it finds nothing missing when every one of them yielded
a meta. -/
theorem second_run_missing_exactly_skipped (httpGet : String → Option Response)
    (gjsonRaw : String → String → String) (resolve : String → List String)
    (fault : FS → String → String → WriteResult)
    (records : List (List String)) (dataDir : String) (fs fs1 : FS) (missing : List String)
    (hres : ∀ name, properName name = true →
      resolve (dataDir ++ "/metas" ++ "/" ++ name) = resolve (dataDir ++ "/metas") ++ [name])
    (hmissing : determineMissingMetas (fs.readDir resolve) records (dataDir ++ "/metas")
      = .ok missing)
    (hplain : ∀ imdbID ∈ missing, '/' ∉ imdbID.data)
    (hrun : mainLoopBody httpGet gjsonRaw resolve fault records dataDir fs = (.ok (), fs1)) :
    determineMissingMetas (fs1.readDir resolve) records (dataDir ++ "/metas")
        = .ok (missing.filter (fun imdbID =>
            decide (fetchedEntry httpGet gjsonRaw imdbID = none))) ∧
    ((∀ imdbID ∈ missing, fetchedEntry httpGet gjsonRaw imdbID ≠ none) →
      determineMissingMetas (fs1.readDir resolve) records (dataDir ++ "/metas") = .ok []) := by
  obtain ⟨header, rows, names, hrec, hmem, hrows, hdir, hmiss⟩ :=
    determineMissingMetas_ok_inv (fs.readDir resolve) records _ missing hmissing
  have hwrite := mainLoopBody_ok_inv httpGet gjsonRaw resolve fault records dataDir fs fs1
    missing hmissing hrun
  obtain ⟨hdirs, hfiles⟩ := writeMetas_ok_files resolve fault _ _ fs fs1 hwrite
  have hplainM : ∀ m ∈ (fetchMetas httpGet gjsonRaw missing).1, '/' ∉ m.imdbID.data :=
    fun m hm => hplain _ (fetched_not_listed httpGet gjsonRaw (fs.readDir resolve) records _
      names missing hdir hmissing m hm).1
  obtain ⟨names1, hdir1, hnames1⟩ := readDir_after_writes resolve _ (dataDir ++ "/metas")
    fs fs1 names hres hplainM hdirs hfiles hdir
  subst hrec
  have hsecond : determineMissingMetas (fs1.readDir resolve) (header :: rows)
      (dataDir ++ "/metas")
      = .ok (missing.filter (fun imdbID =>
          decide (fetchedEntry httpGet gjsonRaw imdbID = none))) := by
    rw [determineMissingMetas_wellFormed (fs1.readDir resolve) header rows _ names1 hmem hrows
      hdir1]
    congr 1
    rw [hmiss, List.filter_filter]
    apply List.filter_congr
    intro v hv
    have hvm : v ∉ names.map (fun n => trimSuffix n ".json") → v ∈ missing := by
      intro h
      rw [hmiss, List.mem_filter]
      exact ⟨hv, by simpa using h⟩
    have key : v ∈ names1.map (fun n => trimSuffix n ".json") ↔
        (v ∈ names.map (fun n => trimSuffix n ".json") ∨
          (v ∈ missing ∧ (fetchedEntry httpGet gjsonRaw v).isSome = true)) := by
      constructor
      · intro h
        obtain ⟨n, hn, htrim⟩ := List.mem_map.1 h
        rcases (hnames1 n).1 hn with h0 | ⟨m, hm, rfl⟩
        · exact Or.inl (List.mem_map.2 ⟨n, h0, htrim⟩)
        · have hv2 : m.imdbID = v := by
            rw [← htrim]; exact (trimSuffix_append _ _).symm
          subst hv2
          exact Or.inr ((mem_fetchMetas_iff httpGet gjsonRaw missing m.imdbID).1 ⟨m, hm, rfl⟩)
      · rintro (h | ⟨hvmiss, hsome⟩)
        · obtain ⟨n, hn, htrim⟩ := List.mem_map.1 h
          exact List.mem_map.2 ⟨n, (hnames1 n).2 (Or.inl hn), htrim⟩
        · obtain ⟨m, hm, hmv⟩ :=
            (mem_fetchMetas_iff httpGet gjsonRaw missing v).2 ⟨hvmiss, hsome⟩
          subst hmv
          exact List.mem_map.2 ⟨m.imdbID ++ ".json",
            (hnames1 _).2 (Or.inr ⟨m, hm, rfl⟩), trimSuffix_append _ _⟩
    by_cases hcached : v ∈ names.map (fun n => trimSuffix n ".json")
    · have h1 : v ∈ names1.map (fun n => trimSuffix n ".json") := key.2 (Or.inl hcached)
      simp only [h1, hcached, not_true_eq_false, decide_False, Bool.and_false]
    · have hvmiss := hvm hcached
      cases he : fetchedEntry httpGet gjsonRaw v with
      | none =>
        have h1 : v ∉ names1.map (fun n => trimSuffix n ".json") := by
          rw [key]; simp [hcached, he]
        simp [h1, hcached]
      | some m =>
        have h1 : v ∈ names1.map (fun n => trimSuffix n ".json") := by
          rw [key]; exact Or.inr ⟨hvmiss, by simp [he]⟩
        simp [h1, hcached]
  refine ⟨hsecond, ?_⟩
  intro hall
  rw [hsecond]
  congr 1
  rw [List.filter_eq_nil_iff]
  intro v hv
  simp [hall v hv]

/-- C7 as amended, at the scenario of the specification with a remote service
that yields a meta for every identifier: the first run writes `tt002.json`
and the second run finds nothing missing. -/
theorem second_run_missing_exactly_skipped_witness :
    mainLoopBody (fun _ => some ⟨200, some "body"⟩) (fun _ _ => "raw") cleanPath
        (fun _ _ _ => .written)
        [["Title", "IMDb ID"], ["A", "tt001"], ["B", "tt002"]] "data"
        ⟨[["data", "metas"]], [(["data", "metas", "tt001.json"], "old")]⟩
      = (.ok (), ⟨[["data", "metas"]],
          [(["data", "metas", "tt002.json"], "raw"), (["data", "metas", "tt001.json"], "old")]⟩) ∧
    determineMissingMetas
        (FS.readDir cleanPath ⟨[["data", "metas"]],
          [(["data", "metas", "tt002.json"], "raw"), (["data", "metas", "tt001.json"], "old")]⟩)
        [["Title", "IMDb ID"], ["A", "tt001"], ["B", "tt002"]] ("data" ++ "/metas") = .ok [] :=
  ⟨rfl, (second_run_missing_exactly_skipped (fun _ => some ⟨200, some "body"⟩)
    (fun _ _ => "raw") cleanPath (fun _ _ _ => .written)
    [["Title", "IMDb ID"], ["A", "tt001"], ["B", "tt002"]] "data"
    ⟨[["data", "metas"]], [(["data", "metas", "tt001.json"], "old")]⟩
    ⟨[["data", "metas"]],
      [(["data", "metas", "tt002.json"], "raw"), (["data", "metas", "tt001.json"], "old")]⟩
    ["tt002"] (fun name h => cleanPath_entry _ name h) rfl (by decide) rfl).2 (by decide)⟩

/-- C9 fails on the code: for a CSV naming `./tt001` and twice `tt2`, against
a cache directory holding `tt001.json`, all three are missing and fetched;
the first write goes to the file `tt001.json`, which exists and is
overwritten, and the third goes to the file the second has created. -/
theorem writes_hit_existing_files :
    determineMissingMetas
        (FS.readDir cleanPath ⟨[["data", "metas"]], [(["data", "metas", "tt001.json"], "old")]⟩)
        [["IMDb ID"], ["./tt001"], ["tt2"], ["tt2"]] "data/metas"
      = .ok ["./tt001", "tt2", "tt2"] ∧
    (fetchMetas (fun _ => some ⟨200, some "body"⟩) (fun _ _ => "raw") ["./tt001", "tt2", "tt2"]).1
      = [⟨"./tt001", "raw"⟩, ⟨"tt2", "raw"⟩, ⟨"tt2", "raw"⟩] ∧
    FS.readFile cleanPath ⟨[["data", "metas"]], [(["data", "metas", "tt001.json"], "old")]⟩
        (metaPath "data/metas" "./tt001") = some "old" ∧
    writeMetas cleanPath (fun _ _ _ => .written) [⟨"./tt001", "raw"⟩, ⟨"tt2", "raw"⟩]
        "data/metas" ⟨[["data", "metas"]], [(["data", "metas", "tt001.json"], "old")]⟩
      = (.ok (), ⟨[["data", "metas"]],
          [(["data", "metas", "tt2.json"], "raw"), (["data", "metas", "tt001.json"], "raw"),
            (["data", "metas", "tt001.json"], "old")]⟩) ∧
    FS.readFile cleanPath ⟨[["data", "metas"]],
        [(["data", "metas", "tt2.json"], "raw"), (["data", "metas", "tt001.json"], "raw"),
          (["data", "metas", "tt001.json"], "old")]⟩
        (metaPath "data/metas" "tt2") = some "raw" ∧
    (mainLoopBody (fun _ => some ⟨200, some "body"⟩) (fun _ _ => "raw") cleanPath
        (fun _ _ _ => .written) [["IMDb ID"], ["./tt001"], ["tt2"], ["tt2"]] "data"
        ⟨[["data", "metas"]], [(["data", "metas", "tt001.json"], "old")]⟩).2.readFile cleanPath
        "data/metas/tt001.json" = some "raw" :=
  ⟨rfl, rfl, rfl, rfl, rfl, rfl⟩

/-- C9 as amended: where a name without a slash appended to the path of the
cache directory names the entry of that name, and no identifier found
missing holds a slash, every write of a pipeline run goes to a file that
does not exist immediately before that write or that an earlier write of the
same run has made for the same identifier; and every entry that the cache
directory listed at the start holds after the run (completed or aborted)
what it held before. -/
theorem mainLoopBody_writes_new_or_own (httpGet : String → Option Response)
    (gjsonRaw : String → String → String) (resolve : String → List String)
    (fault : FS → String → String → WriteResult)
    (records : List (List String)) (dataDir : String) (fs : FS) (names missing : List String)
    (hres : ∀ name, properName name = true →
      resolve (dataDir ++ "/metas" ++ "/" ++ name) = resolve (dataDir ++ "/metas") ++ [name])
    (hdir : fs.readDir resolve (dataDir ++ "/metas") = some names)
    (hmissing : determineMissingMetas (fs.readDir resolve) records (dataDir ++ "/metas")
      = .ok missing)
    (hplain : ∀ imdbID ∈ missing, '/' ∉ imdbID.data) :
    (∀ b m a fsb, (fetchMetas httpGet gjsonRaw missing).1 = b ++ m :: a →
      writeMetas resolve fault b (dataDir ++ "/metas") fs = (.ok (), fsb) →
      (fsb.readFile resolve (dataDir ++ "/metas" ++ "/" ++ m.imdbID ++ ".json") = none ∨
        ∃ x ∈ b, x.imdbID = m.imdbID)) ∧
    (∀ n ∈ names,
      (mainLoopBody httpGet gjsonRaw resolve fault records dataDir fs).2.readFile resolve
          (dataDir ++ "/metas" ++ "/" ++ n)
        = fs.readFile resolve (dataDir ++ "/metas" ++ "/" ++ n)) := by
  have hfetched := fetched_not_listed httpGet gjsonRaw (fs.readDir resolve) records _
    names missing hdir hmissing
  have hloc : ∀ m ∈ (fetchMetas httpGet gjsonRaw missing).1,
      resolve (metaPath (dataDir ++ "/metas") m.imdbID)
        = resolve (dataDir ++ "/metas") ++ [m.imdbID ++ ".json"] :=
    fun m hm => resolve_metaPath resolve _ m.imdbID hres (hplain _ (hfetched m hm).1)
  constructor
  · intro b m a fsb hsplit hb
    have hmIn : m ∈ (fetchMetas httpGet gjsonRaw missing).1 := by rw [hsplit]; simp
    have hbIn : ∀ x ∈ b, x ∈ (fetchMetas httpGet gjsonRaw missing).1 := by
      intro x hx; rw [hsplit]; simp [hx]
    obtain ⟨_, hfiles⟩ := writeMetas_ok_files resolve fault b _ fs fsb hb
    by_cases hdup : ∃ x ∈ b, x.imdbID = m.imdbID
    · exact Or.inr hdup
    · left
      show List.lookup (resolve (metaPath (dataDir ++ "/metas") m.imdbID)) fsb.files = none
      rw [hfiles, readFile_not_written]
      · apply lookup_eq_none_of_not_mem
        intro hin
        rw [hloc m hmIn] at hin
        have hlisted : m.imdbID ++ ".json" ∈ names :=
          (mem_readDir resolve fs _ names hdir _).2
            ⟨properName_json _ (hplain _ (hfetched m hmIn).1), List.mem_append.2 (Or.inl hin)⟩
        exact (hfetched m hmIn).2 hlisted
      · intro x hx heq
        rw [hloc m hmIn, hloc x (hbIn x hx)] at heq
        have h1 : m.imdbID ++ ".json" = x.imdbID ++ ".json" := by
          simpa using List.append_cancel_left heq
        exact hdup ⟨x, hx, (json_name_injective _ _ h1).symm⟩
  · intro n hn
    unfold mainLoopBody
    simp only [hmissing]
    obtain ⟨added, hsub, hfiles⟩ := writeMetas_files resolve fault
      (fetchMetas httpGet gjsonRaw missing).1 (dataDir ++ "/metas") fs
    unfold FS.readFile
    rw [hfiles]
    apply lookup_append_of_ne
    intro e he heq
    obtain ⟨x, hx, hex⟩ := hsub e he
    have hnp := ((mem_readDir resolve fs _ names hdir n).1 hn).1
    rw [hex, hloc x hx, hres n hnp] at heq
    have h1 : x.imdbID ++ ".json" = n := by simpa using List.append_cancel_left heq
    exact (hfetched x hx).2 (h1 ▸ hn)

/-- C9 as amended, on a CSV naming the cached `tt001` and twice the missing
`tt002`: the listed `tt001.json` keeps its content. -/
theorem mainLoopBody_writes_new_or_own_witness :
    (mainLoopBody (fun _ => some ⟨200, some "body"⟩) (fun _ _ => "raw") cleanPath
        (fun _ _ _ => .written) [["IMDb ID"], ["tt001"], ["tt002"], ["tt002"]] "data"
        ⟨[["data", "metas"]], [(["data", "metas", "tt001.json"], "old")]⟩).2.readFile cleanPath
        ("data" ++ "/metas" ++ "/" ++ "tt001.json")
      = FS.readFile cleanPath ⟨[["data", "metas"]], [(["data", "metas", "tt001.json"], "old")]⟩
          ("data" ++ "/metas" ++ "/" ++ "tt001.json") :=
  (mainLoopBody_writes_new_or_own (fun _ => some ⟨200, some "body"⟩) (fun _ _ => "raw")
    cleanPath (fun _ _ _ => .written) [["IMDb ID"], ["tt001"], ["tt002"], ["tt002"]] "data"
    ⟨[["data", "metas"]], [(["data", "metas", "tt001.json"], "old")]⟩ ["tt001.json"]
    ["tt002", "tt002"] (fun name h => cleanPath_entry _ name h) rfl rfl (by decide)).2
    "tt001.json" (by simp)

end Metafetcher
